import Mathlib

/-!
Shallow embedding of the KanDo plugin's state-reconciliation core:
the per-file frontmatter update serializer (FrontmatterManager) and the
status polling / reconciliation engine (VKStatusPoller).  Every definition
is translated from the TypeScript source; JS `Map`s and `Set`s become
insertion-ordered association lists / lists, promise chains become an
explicit sequential execution relation, and the network is an oracle
argument supplying each project's fetch result.
-/

/-! ## FrontmatterManager: merge semantics of one write -/

/-- Frontmatter of a document: field names mapped to optional string values
(`none` plays the role of JS `undefined` / an absent field). -/
abbrev Frontmatter := String → Option String

/-- The empty frontmatter: every field is absent. -/
def Frontmatter.empty : Frontmatter := fun _ => none

/-- The `processFrontMatter` callback inside `FrontmatterManager.update`
(src lines 45-51): iterate the entries of the update mapping in order and
assign only those values that are not `undefined`. -/
def applyMerge (fm : Frontmatter) (updates : List (String × Option String)) : Frontmatter :=
  updates.foldl
    (fun acc kv =>
      match kv.2 with
      | none => acc
      | some v => fun key => if key = kv.1 then some v else acc key)
    fm

/-! ## FrontmatterManager: the per-path promise chain -/

/-- One queued `FrontmatterManager.update` call for a fixed file path:
the fields it carries and whether its underlying `processFrontMatter`
write rejects (`some e`, with `e` tagging the rejection reason) or
fulfills (`none`). -/
structure QueuedUpdate where
  fields : List (String × Option String)
  fails : Option Nat
deriving DecidableEq

/-- Settlement of a JS promise. -/
inductive Outcome where
  | fulfilled
  | rejected (e : Nat)
deriving DecidableEq

/-- Observable events of merge-writes against the store: the `i`-th queued
update's `processFrontMatter` call starting and settling. -/
inductive WriteEvent where
  | start (i : Nat)
  | settle (i : Nat)
deriving DecidableEq

/-- Result of draining one path's queued batch: the final frontmatter, the
outcome each caller's awaited promise settles with (in queue order), and
the trace of merge-write events in the order they happen. -/
structure ChainResult where
  fm : Frontmatter
  outcomes : List Outcome
  trace : List WriteEvent

/-- Execution of the promise chain built by `FrontmatterManager.update`
(src lines 37-61) for one file path, over a batch of updates queued while
the chain is pending.  Each update is registered with
`existingQueue.then(write).finally(cleanup)`: when the predecessor promise
fulfilled, the write runs (and settles with its own result); when the
predecessor rejected, `.then` skips the write entirely and propagates the
predecessor's rejection reason to this caller; `.finally` passes the
outcome through either way.  `prev` is the settlement of the chain built
so far and `i` the queue index of the next update. -/
def runChainAux (fm : Frontmatter) (prev : Outcome) (i : Nat) :
    List QueuedUpdate → ChainResult
  | [] => ⟨fm, [], []⟩
  | u :: rest =>
    match prev with
    | .rejected e =>
      let r := runChainAux fm (.rejected e) (i + 1) rest
      ⟨r.fm, .rejected e :: r.outcomes, r.trace⟩
    | .fulfilled =>
      match u.fails with
      | some e =>
        let r := runChainAux fm (.rejected e) (i + 1) rest
        ⟨r.fm, .rejected e :: r.outcomes, .start i :: .settle i :: r.trace⟩
      | none =>
        let r := runChainAux (applyMerge fm u.fields) .fulfilled (i + 1) rest
        ⟨r.fm, .fulfilled :: r.outcomes, .start i :: .settle i :: r.trace⟩

/-- Drain a whole batch queued on a path whose map entry was absent, so the
first link chains on `Promise.resolve()` (src line 41). -/
def runChain (fm : Frontmatter) (us : List QueuedUpdate) : ChainResult :=
  runChainAux fm .fulfilled 0 us

/-- Number of queued updates whose merge-write actually runs: every update
up to and including the first failing one, or all of them. -/
def runCount : List QueuedUpdate → Nat
  | [] => 0
  | u :: rest =>
    match u.fails with
    | some _ => 1
    | none => runCount rest + 1

/-! ## VKStatusPoller: data model -/

/-- A task payload as returned by the VK API (`VKTaskWithAttemptStatus` in
src/types.ts). -/
structure VKTask where
  id : String
  project_id : String
  title : String
  description : Option String
  status : String
  parent_task_attempt : Option String
  shared_task_id : Option String
  created_at : String
  updated_at : String
  has_in_progress_attempt : Bool
  has_merged_attempt : Bool
  last_attempt_failed : Bool
  executor : Option String
deriving DecidableEq

/-- Result of one `requestUrl` fetch for a project: the catch-branch case
(rejection: network error or non-2xx throw) or a resolved response with a
status code and parsed task list. -/
inductive FetchResult where
  | fetchError
  | response (status : Nat) (tasks : List VKTask)
deriving DecidableEq

/-- Lookup in an insertion-ordered association list, as JS `Map.get`. -/
def mGet (m : List (String × String)) (k : String) : Option String :=
  (m.find? (fun p => p.1 = k)).map (fun p => p.2)

/-- JS `Map.set`: overwrite in place when the key exists (keeping its
insertion position), otherwise append at the end. -/
def mSet (m : List (String × String)) (k v : String) : List (String × String) :=
  if m.any (fun p => p.1 = k) then
    m.map (fun p => if p.1 = k then (k, v) else p)
  else m ++ [(k, v)]

/-- JS `Map.delete`. -/
def mDel (m : List (String × String)) (k : String) : List (String × String) :=
  m.filter (fun p => p.1 ≠ k)

/-- JS `Set.add`: append if absent. -/
def sAdd (s : List String) (x : String) : List String :=
  if x ∈ s then s else s ++ [x]

/-- Mutable state of a `VKStatusPoller` instance (src lines 156-170), plus
two observation logs: `timerScheduled` mirrors whether `pollTimer` holds a
scheduled timeout, and `notifications` records every `onTaskUpdate`
invocation in order. -/
structure PollerState where
  isPolling : Bool
  lastKnownStates : List (String × String)
  taskProjectMap : List (String × String)
  activeTaskIds : List String
  projectIds : List String
  consecutiveErrors : Nat
  currentBackoff : Nat
  timerScheduled : Bool
  notifications : List VKTask
deriving DecidableEq

/-- Base backoff for errors (src line 158). -/
def baseBackoff : Nat := 5000

/-- Max backoff (src line 159). -/
def maxBackoff : Nat := 60000

/-- Regular poll interval (src line 157). -/
def pollInterval : Nat := 5000

/-- Cap on tracked tasks (src line 169). -/
def maxTrackedTasks : Nat := 1000

/-- Combined state key `"status:executing"` (src lines 315 and 403). -/
def combined (status : String) (executing : Bool) : String :=
  status ++ ":" ++ toString executing

/-- The synthetic deletion payload emitted for a task that disappeared from
its project's response (src lines 289-303). -/
def syntheticDeletion (taskId projectId : String) : VKTask :=
  { id := taskId
    project_id := projectId
    title := ""
    description := none
    status := "deleted"
    parent_task_attempt := none
    shared_task_id := none
    created_at := ""
    updated_at := ""
    has_in_progress_attempt := false
    has_merged_attempt := false
    last_attempt_failed := false
    executor := none }

/-! ## VKStatusPoller: public mutators -/

/-- `trackTask` (src lines 213-215). -/
def trackTask (s : PollerState) (taskId : String) : PollerState :=
  { s with activeTaskIds := sAdd s.activeTaskIds taskId }

/-- `untrackTask` (src lines 220-225). -/
def untrackTask (s : PollerState) (taskId : String) : PollerState :=
  { s with
    activeTaskIds := s.activeTaskIds.filter (fun x => x ≠ taskId)
    lastKnownStates := mDel s.lastKnownStates taskId
    taskProjectMap := mDel s.taskProjectMap taskId }

/-- `setKnownState` (src lines 402-404). -/
def setKnownState (s : PollerState) (taskId status : String)
    (executing : Bool) : PollerState :=
  { s with lastKnownStates := mSet s.lastKnownStates taskId (combined status executing) }

/-- `stop` (src lines 381-395): mark stopped, clear the timer and all
tracked state, reset the backoff counters.  The `notifications` log is an
observation history, not poller state, so it is kept. -/
def stop (s : PollerState) : PollerState :=
  { s with
    isPolling := false
    timerScheduled := false
    lastKnownStates := []
    taskProjectMap := []
    projectIds := []
    activeTaskIds := []
    consecutiveErrors := 0
    currentBackoff := pollInterval }

/-! ## VKStatusPoller: one poll cycle -/

/-- One iteration of the deleted-task scan (src lines 280-310) for a single
entry of the `taskProjectMap` snapshot: if the entry belongs to the polled
project and its task id is absent from the response, and a last known state
exists (JS truthiness: a non-empty string) that is not the literal string
"deleted", emit a synthetic deletion notification and purge the task from
both maps. -/
def deletionStep (projectId : String) (currentIds : List String)
    (st : PollerState) (entry : String × String) : PollerState :=
  if entry.2 = projectId ∧ ¬ entry.1 ∈ currentIds then
    match mGet st.lastKnownStates entry.1 with
    | some ls =>
      if ls ≠ "" ∧ ls ≠ "deleted" then
        { st with
          notifications := st.notifications ++ [syntheticDeletion entry.1 projectId]
          lastKnownStates := mDel st.lastKnownStates entry.1
          taskProjectMap := mDel st.taskProjectMap entry.1 }
      else st
    | none => st
  else st

/-- The deleted-task scan over the `taskProjectMap` entries (iterating the
entries present when the scan starts; the loop only deletes the entry it is
visiting, so this matches the live JS `Map` iterator). -/
def deletionPass (s : PollerState) (projectId : String)
    (currentIds : List String) : PollerState :=
  s.taskProjectMap.foldl (deletionStep projectId currentIds) s

/-- One iteration of the change-detection loop (src lines 313-331) for a
single response task: notify when a previous combined state was recorded
and differs from the new one, then record the new combined state and the
project mapping. -/
def changeStep (projectId : String) (st : PollerState) (task : VKTask) : PollerState :=
  let currentState := combined task.status task.has_in_progress_attempt
  let lastState := mGet st.lastKnownStates task.id
  { st with
    notifications :=
      if lastState ≠ none ∧ lastState ≠ some currentState then
        st.notifications ++ [task]
      else st.notifications
    lastKnownStates := mSet st.lastKnownStates task.id currentState
    taskProjectMap := mSet st.taskProjectMap task.id projectId }

/-- The change-detection loop over the response tasks in order. -/
def changePass (s : PollerState) (projectId : String)
    (tasks : List VKTask) : PollerState :=
  tasks.foldl (changeStep projectId) s

/-- The terminal statuses (src line 231). -/
def terminalStatuses : List String := ["done", "cancelled", "deleted"]

/-- Extract the status component of a combined state, as
`state.split(':')[0]` (src line 233): for a single-character separator this
is the longest prefix not containing ':' (the whole string when ':' is
absent, and "" when the string starts with ':' or is empty). -/
def statusOf (state : String) : String :=
  String.mk (state.toList.takeWhile (fun c => c ≠ ':'))

/-- One iteration of `cleanupTerminalTasks` (src lines 230-244) for a single
entry of the `lastKnownStates` snapshot: purge terminal tasks that are not
actively tracked. -/
def cleanupStep (st : PollerState) (entry : String × String) : PollerState :=
  if statusOf entry.2 ∈ terminalStatuses ∧ ¬ entry.1 ∈ st.activeTaskIds then
    { st with
      lastKnownStates := mDel st.lastKnownStates entry.1
      taskProjectMap := mDel st.taskProjectMap entry.1 }
  else st

/-- `cleanupTerminalTasks` (src lines 230-244). -/
def cleanupTerminalTasks (s : PollerState) : PollerState :=
  s.lastKnownStates.foldl cleanupStep s

/-- The capacity-eviction loop (src lines 339-349): walk the keys in
insertion order; stop once `need` entries have been removed; skip actively
tracked keys; otherwise delete the key from both maps and count it. -/
def evictLoop (s : PollerState) (need : Nat) : List String → PollerState
  | [] => s
  | key :: rest =>
    if need = 0 then s
    else if key ∈ s.activeTaskIds then evictLoop s need rest
    else
      evictLoop
        { s with
          lastKnownStates := mDel s.lastKnownStates key
          taskProjectMap := mDel s.taskProjectMap key }
        (need - 1) rest

/-- Capacity eviction (src lines 336-350): only runs when the tracked-task
count exceeds the cap. -/
def capacityEvict (s : PollerState) : PollerState :=
  if s.lastKnownStates.length > maxTrackedTasks then
    evictLoop s (s.lastKnownStates.length - maxTrackedTasks)
      (s.lastKnownStates.map Prod.fst)
  else s

/-- Processing of one resolved 200 response (src lines 268-350): deleted-task
scan, change detection, terminal cleanup, capacity eviction. -/
def processResponse (s : PollerState) (projectId : String)
    (tasks : List VKTask) : PollerState :=
  let currentIds := tasks.map VKTask.id
  capacityEvict (cleanupTerminalTasks (changePass (deletionPass s projectId currentIds) projectId tasks))

/-- The body of one project iteration after the fetch settles (src lines
256-357): a rejection is caught and recorded for backoff (second component);
a resolved response is processed only when its status is 200. -/
def processProject (s : PollerState) (projectId : String)
    (r : FetchResult) : PollerState × Bool :=
  match r with
  | .fetchError => (s, true)
  | .response status tasks =>
    if status = 200 then (processResponse s projectId tasks, false) else (s, false)

/-- The per-project loop of one poll cycle (src lines 253-358).  `ps` is the
iterator state over the live `projectIds` set: an entry removed from the set
before being visited (only `stop` removes entries) is skipped by the JS
`Set` iterator, hence the membership check against the current
`s.projectIds`.  The loop body first re-checks `isPolling` (an early
`return`, reported through the third component as `completed = false`,
which skips the backoff and scheduling code); `stopDuring p` means `stop()`
was called while project `p`'s fetch was in flight, so the state observed
when the fetch settles is the stopped one.  The second component
accumulates `hasError`. -/
def pollLoop (fetch : String → FetchResult) (stopDuring : String → Bool)
    (s : PollerState) (hasError : Bool) : List String → PollerState × Bool × Bool
  | [] => (s, hasError, true)
  | p :: rest =>
    if p ∈ s.projectIds then
      if ¬ s.isPolling then (s, hasError, false)
      else
        let s1 := if stopDuring p then stop s else s
        let pr := processProject s1 p (fetch p)
        pollLoop fetch stopDuring pr.1 (hasError || pr.2) rest
    else pollLoop fetch stopDuring s hasError rest

/-- Backoff bookkeeping after the loop (src lines 361-373). -/
def updateBackoff (s : PollerState) (hasError : Bool) : PollerState :=
  if hasError then
    { s with
      consecutiveErrors := s.consecutiveErrors + 1
      currentBackoff := min (baseBackoff * 2 ^ (s.consecutiveErrors + 1 - 1)) maxBackoff }
  else
    { s with consecutiveErrors := 0, currentBackoff := pollInterval }

/-- The tail of `poll()` after the per-project loop (src lines 360-378),
taking the loop's result triple: when the loop completed (no early return),
apply the backoff bookkeeping and, if still polling, schedule the next
cycle via `window.setTimeout`; when the loop returned early, nothing after
it runs. -/
def pollFinish (r : PollerState × Bool × Bool) : PollerState :=
  if r.2.2 then
    if (updateBackoff r.1 r.2.1).isPolling then
      { updateBackoff r.1 r.2.1 with timerScheduled := true }
    else updateBackoff r.1 r.2.1
  else r.1

/-- One `poll()` invocation (src lines 246-379): the entry guard, the
per-project loop, then the backoff update and rescheduling. -/
def poll (s : PollerState) (fetch : String → FetchResult)
    (stopDuring : String → Bool) : PollerState :=
  if ¬ s.isPolling then s
  else pollFinish (pollLoop fetch stopDuring s false s.projectIds)

/-- One poll cycle with no concurrent `stop()` call. -/
def pollCycle (s : PollerState) (fetch : String → FetchResult) : PollerState :=
  poll s fetch (fun _ => false)

/-- Consecutive poll cycles, each with its own fetch oracle. -/
def pollCycles (s : PollerState) : List (String → FetchResult) → PollerState
  | [] => s
  | f :: fs => pollCycles (pollCycle s f) fs

/-- The keys the capacity-eviction pass removes: the first
`size - maxTrackedTasks` keys, in insertion order, among those absent from
the active set (empty when the map is within the cap). -/
def evictedKeys (s : PollerState) : List String :=
  if s.lastKnownStates.length > maxTrackedTasks then
    ((s.lastKnownStates.map Prod.fst).filter
        (fun k => ¬ k ∈ s.activeTaskIds)).take
      (s.lastKnownStates.length - maxTrackedTasks)
  else []

/-- Two poller states agree on everything except the two tracked-state maps
and the notification log: the response-processing passes only touch the
maps and the log. -/
def sameControls (a b : PollerState) : Prop :=
  a.isPolling = b.isPolling ∧ a.projectIds = b.projectIds ∧
  a.activeTaskIds = b.activeTaskIds ∧ a.consecutiveErrors = b.consecutiveErrors ∧
  a.currentBackoff = b.currentBackoff ∧ a.timerScheduled = b.timerScheduled

/-- Concrete state for the deleted-phase scenario: task `X` is actively
tracked for project `P` with recorded combined state `"deleted:false"`,
whose phase component is already `"deleted"`. -/
def deletedPhaseState : PollerState :=
  { isPolling := true
    lastKnownStates := [("X", "deleted:false")]
    taskProjectMap := [("X", "P")]
    activeTaskIds := ["X"]
    projectIds := ["P"]
    consecutiveErrors := 0
    currentBackoff := 5000
    timerScheduled := false
    notifications := [] }

/-- Concrete state of a running poller for project `P` with nothing tracked
and a timer pending, about to be stopped while a fetch is in flight. -/
def preStopState : PollerState :=
  { isPolling := true
    lastKnownStates := []
    taskProjectMap := []
    activeTaskIds := []
    projectIds := ["P"]
    consecutiveErrors := 0
    currentBackoff := 5000
    timerScheduled := true
    notifications := [] }

/-- A concrete task payload used in the stop-race scenario. -/
def inflightTask : VKTask :=
  { id := "X"
    project_id := "P"
    title := "t"
    description := none
    status := "todo"
    parent_task_attempt := none
    shared_task_id := none
    created_at := ""
    updated_at := ""
    has_in_progress_attempt := false
    has_merged_attempt := false
    last_attempt_failed := false
    executor := none }

/-- Concrete batch of two queued updates for one path: the first one's
underlying write rejects (reason 7), the second one's would succeed. -/
def failingBatch : List QueuedUpdate :=
  [⟨[("vk_status", some "a")], some 7⟩, ⟨[("vk_status", some "b")], none⟩]

/-- Fetch oracle in which every project's fetch rejects. -/
def errOracle : String → FetchResult := fun _ => FetchResult.fetchError

/-- Fetch oracle in which every project's fetch resolves with an empty
200 response. -/
def okOracle : String → FetchResult := fun _ => FetchResult.response 200 []

/-- Fetch oracle for the stop-race scenario: the in-flight fetch resolves
with a 200 response containing one task. -/
def stopScenarioOracle : String → FetchResult :=
  fun _ => FetchResult.response 200 [inflightTask]

/-! ## Association-list lemmas -/

theorem mGet_mDel_self (m : List (String × String)) (k : String) :
    mGet (mDel m k) k = none := by
  unfold mGet mDel
  rw [List.find?_eq_none.mpr]
  · rfl
  · intro x hx
    simp only [List.mem_filter] at hx
    simpa using hx.2

theorem mGet_mDel_ne (m : List (String × String)) (k tid : String) (h : ¬ tid = k) :
    mGet (mDel m k) tid = mGet m tid := by
  induction m with
  | nil => rfl
  | cons e rest ih =>
    by_cases hek : e.1 = k
    · have het : ¬ e.1 = tid := fun hc => h (by rw [← hc, hek])
      have h1 : mDel (e :: rest) k = mDel rest k := by
        simp [mDel, List.filter_cons, hek]
      rw [h1, ih]
      unfold mGet
      rw [List.find?_cons_of_neg _ (by simpa using het)]
    · have h1 : mDel (e :: rest) k = e :: mDel rest k := by
        simp [mDel, List.filter_cons, hek]
      rw [h1]
      by_cases het : e.1 = tid
      · unfold mGet
        rw [List.find?_cons_of_pos _ (by simpa using het),
          List.find?_cons_of_pos _ (by simpa using het)]
      · unfold mGet
        rw [List.find?_cons_of_neg _ (by simpa using het),
          List.find?_cons_of_neg _ (by simpa using het)]
        exact ih

theorem mGet_mDel (m : List (String × String)) (k tid : String) :
    mGet (mDel m k) tid = if tid = k then none else mGet m tid := by
  by_cases h : tid = k
  · rw [if_pos h, h]
    exact mGet_mDel_self m k
  · rw [if_neg h]
    exact mGet_mDel_ne m k tid h

theorem mGet_mDel_none (m : List (String × String)) (k tid : String)
    (h : mGet m tid = none) : mGet (mDel m k) tid = none := by
  rw [mGet_mDel]
  split
  · rfl
  · exact h

theorem find?_map_overwrite (k v tid : String) (h : ¬ tid = k)
    (m : List (String × String)) :
    mGet (m.map (fun p => if p.1 = k then (k, v) else p)) tid = mGet m tid := by
  induction m with
  | nil => rfl
  | cons e rest ih =>
    rw [List.map_cons]
    by_cases hek : e.1 = k
    · have het : ¬ e.1 = tid := fun hc => h (by rw [← hc, hek])
      have hkt : ¬ (k, v).1 = tid := fun hc => h hc.symm
      rw [if_pos hek]
      unfold mGet
      rw [List.find?_cons_of_neg _ (by simpa using hkt),
        List.find?_cons_of_neg _ (by simpa using het)]
      exact ih
    · rw [if_neg hek]
      by_cases het : e.1 = tid
      · unfold mGet
        rw [List.find?_cons_of_pos _ (by simpa using het),
          List.find?_cons_of_pos _ (by simpa using het)]
      · unfold mGet
        rw [List.find?_cons_of_neg _ (by simpa using het),
          List.find?_cons_of_neg _ (by simpa using het)]
        exact ih

theorem mGet_append_single (m : List (String × String)) (k v tid : String)
    (h : ¬ tid = k) :
    mGet (m ++ [(k, v)]) tid = mGet m tid := by
  unfold mGet
  rw [List.find?_append]
  have h2 : List.find? (fun p => decide (p.1 = tid)) [(k, v)] = none := by
    rw [List.find?_cons_of_neg _ (by simpa using fun hc : k = tid => h hc.symm)]
    rfl
  rw [h2]
  cases List.find? (fun p => decide (p.1 = tid)) m <;> rfl

theorem mGet_mSet_ne (m : List (String × String)) (k v tid : String)
    (h : ¬ tid = k) :
    mGet (mSet m k v) tid = mGet m tid := by
  unfold mSet
  split
  · exact find?_map_overwrite k v tid h m
  · exact mGet_append_single m k v tid h

theorem mGet_eq_find (m : List (String × String)) (tid v : String)
    (h : mGet m tid = some v) :
    m.find? (fun p => decide (p.1 = tid)) = some (tid, v) := by
  unfold mGet at h
  cases hf : m.find? (fun p => decide (p.1 = tid)) with
  | none => rw [hf] at h; exact absurd h (by simp)
  | some e =>
    rw [hf] at h
    have hpe : e.1 = tid := by simpa using List.find?_some hf
    have hv : e.2 = v := by simpa using h
    exact congrArg some (Prod.ext hpe hv)

/-! ## FrontmatterManager theorems -/

theorem runChainAux_rejected (fm : Frontmatter) (e : Nat) (us : List QueuedUpdate) :
    ∀ i : Nat, runChainAux fm (.rejected e) i us =
      ⟨fm, us.map (fun _ => .rejected e), []⟩ := by
  induction us with
  | nil => intro i; rfl
  | cons u rest ih => intro i; simp [runChainAux, ih]

theorem runChainAux_trace (us : List QueuedUpdate) :
    ∀ (fm : Frontmatter) (i : Nat),
      (runChainAux fm .fulfilled i us).trace =
        (List.range' i (runCount us)).flatMap
          (fun j => [WriteEvent.start j, WriteEvent.settle j]) := by
  induction us with
  | nil => intro fm i; rfl
  | cons u rest ih =>
    intro fm i
    cases hf : u.fails with
    | some e =>
      simp [runChainAux, hf, runCount, runChainAux_rejected, List.range'_succ]
    | none =>
      simp [runChainAux, hf, runCount, ih, List.range'_succ]

/-- C2: for every document path, updates chained by FrontmatterManager.update
run strictly in request (FIFO) order with at most one merge-write in flight at
any instant: the write trace of any queued batch is exactly start 0, settle 0,
start 1, settle 1, ... (each write settles before the next begins, writes are
never interleaved), and in the concrete two-update scenario carrying
status a then status b the second write starts only after the first settled
and the final persisted status is b. -/
theorem update_per_path_fifo (fm : Frontmatter) (a b : String) :
    (runChain fm [⟨[("vk_status", some a)], none⟩,
        ⟨[("vk_status", some b)], none⟩]).trace
        = [.start 0, .settle 0, .start 1, .settle 1] ∧
    (runChain fm [⟨[("vk_status", some a)], none⟩,
        ⟨[("vk_status", some b)], none⟩]).fm "vk_status" = some b ∧
    ∀ us : List QueuedUpdate,
      (runChain fm us).trace =
        (List.range (runCount us)).flatMap
          (fun j => [WriteEvent.start j, WriteEvent.settle j]) := by
  refine ⟨rfl, rfl, ?_⟩
  intro us
  rw [runChain, runChainAux_trace, List.range_eq_range']

/-- C9: FrontmatterManager.update has merge semantics with a frame condition:
any field that carries no defined value in the partial-update mapping
(because it is absent, or present with value undefined) keeps its previous
persisted value; only fields with defined values are written. -/
theorem update_merge_frame (fm : Frontmatter)
    (updates : List (String × Option String)) (k : String)
    (h : ∀ v : String, ¬ (k, some v) ∈ updates) :
    applyMerge fm updates k = fm k := by
  induction updates generalizing fm with
  | nil => rfl
  | cons kv rest ih =>
    have hrest : ∀ v : String, ¬ (k, some v) ∈ rest :=
      fun v hv => h v (List.mem_cons_of_mem _ hv)
    obtain ⟨k1, v1⟩ := kv
    cases v1 with
    | none =>
      show applyMerge fm rest k = fm k
      exact ih fm hrest
    | some v =>
      have hk : ¬ k = k1 := by
        intro hkk
        exact h v (by rw [hkk]; exact List.mem_cons_self _ _)
      show applyMerge (fun key => if key = k1 then some v else fm key) rest k = fm k
      rw [ih _ hrest]
      exact if_neg hk

/-- Witness for C9 at a concrete input: the mapping writes vk_status and
carries vk_pr_url with an undefined value, so vk_pr_url is left unchanged. -/
theorem update_merge_frame_witness :
    (∀ v : String,
      ¬ ("vk_pr_url", some v) ∈
        [("vk_status", (some "a" : Option String)), ("vk_pr_url", none)]) ∧
    applyMerge Frontmatter.empty
        [("vk_status", some "a"), ("vk_pr_url", none)] "vk_pr_url" =
      Frontmatter.empty "vk_pr_url" :=
  ⟨fun v => by simp, update_merge_frame Frontmatter.empty _ _ (fun v => by simp)⟩

/-- C1 counterexample: two updates are queued on one path; the first one's
underlying merge-write rejects with reason 7.  The claim says the second
queued update still performs its own merge-write (so vk_status would end
as "b") and the failure is delivered only to the first caller.  In the
code, the second update's promise is chained with .then on the rejected
first promise, so its write is skipped (vk_status stays absent) and its
caller also receives rejection 7. -/
theorem update_failure_blocks_queued_successor :
    (runChain Frontmatter.empty failingBatch).outcomes
        = [Outcome.rejected 7, Outcome.rejected 7] ∧
    (runChain Frontmatter.empty failingBatch).fm "vk_status" = none ∧
    (runChain Frontmatter.empty failingBatch).trace
        = [WriteEvent.start 0, WriteEvent.settle 0] :=
  ⟨rfl, rfl, rfl⟩

/-- C1 amended: if a queued update for a document path fails, every update
queued behind it in the same pending chain skips its own merge-write and
rejects with that same failure (the chain does not continue past a failed
link); the persisted frontmatter is exactly what the successful prefix
before the failing update produced.  Only updates queued after the chain
has drained and its queue-map entry has been removed start a fresh chain. -/
theorem update_failure_propagates_to_queued (fm : Frontmatter)
    (us1 us2 : List QueuedUpdate) (u : QueuedUpdate) (e : Nat)
    (h1 : ∀ v ∈ us1, v.fails = none) (h2 : u.fails = some e) :
    (runChain fm (us1 ++ u :: us2)).outcomes =
      us1.map (fun _ => Outcome.fulfilled) ++
        Outcome.rejected e :: us2.map (fun _ => Outcome.rejected e) ∧
    (runChain fm (us1 ++ u :: us2)).fm = (runChain fm us1).fm := by
  suffices hgen : ∀ (l : List QueuedUpdate) (g : Frontmatter) (i : Nat),
      (∀ v ∈ l, v.fails = none) →
      (runChainAux g .fulfilled i (l ++ u :: us2)).outcomes =
        l.map (fun _ => Outcome.fulfilled) ++
          Outcome.rejected e :: us2.map (fun _ => Outcome.rejected e) ∧
      (runChainAux g .fulfilled i (l ++ u :: us2)).fm =
        (runChainAux g .fulfilled i l).fm by
    exact hgen us1 fm 0 h1
  intro l
  induction l with
  | nil =>
    intro g i _
    simp [runChainAux, h2, runChainAux_rejected]
  | cons v rest ih =>
    intro g i hall
    have hv : v.fails = none := hall v (List.mem_cons_self v rest)
    have hrest : ∀ w ∈ rest, w.fails = none :=
      fun w hw => hall w (List.mem_cons_of_mem _ hw)
    have hihe := ih (applyMerge g v.fields) (i + 1) hrest
    constructor
    · show (runChainAux g .fulfilled i ((v :: rest) ++ u :: us2)).outcomes = _
      rw [List.cons_append]
      simp only [runChainAux, hv]
      simp [hihe.1]
    · show (runChainAux g .fulfilled i ((v :: rest) ++ u :: us2)).fm = _
      rw [List.cons_append]
      simp only [runChainAux, hv]
      exact hihe.2

/-- Witness for C1's amended theorem at the concrete failing batch: the
successful prefix is empty, the failing update rejects with 7, and the
one update queued behind it rejects with 7 without writing. -/
theorem update_failure_propagates_to_queued_witness :
    (∀ v ∈ ([] : List QueuedUpdate), v.fails = none) ∧
    (⟨[("vk_status", some "a")], some 7⟩ : QueuedUpdate).fails = some 7 ∧
    ((runChain Frontmatter.empty
        ([] ++ (⟨[("vk_status", some "a")], some 7⟩ : QueuedUpdate) ::
          [⟨[("vk_status", some "b")], none⟩])).outcomes =
      ([] : List QueuedUpdate).map (fun _ => Outcome.fulfilled) ++
        Outcome.rejected 7 ::
          [(⟨[("vk_status", some "b")], none⟩ : QueuedUpdate)].map
            (fun _ => Outcome.rejected 7) ∧
     (runChain Frontmatter.empty
        ([] ++ (⟨[("vk_status", some "a")], some 7⟩ : QueuedUpdate) ::
          [⟨[("vk_status", some "b")], none⟩])).fm =
       (runChain Frontmatter.empty []).fm) :=
  ⟨fun v hv => absurd hv (List.not_mem_nil v), rfl,
    update_failure_propagates_to_queued Frontmatter.empty [] _ _ 7
      (fun v hv => absurd hv (List.not_mem_nil v)) rfl⟩

/-! ## VKStatusPoller theorems -/

theorem foldl_inv {β : Type} (P : PollerState → Prop) (f : PollerState → β → PollerState)
    (l : List β) (hf : ∀ st b, b ∈ l → P st → P (f st b)) :
    ∀ st, P st → P (l.foldl f st) := by
  induction l with
  | nil => exact fun st h => h
  | cons b rest ih =>
    intro st h
    exact ih (fun st' b' hb' => hf st' b' (List.mem_cons_of_mem _ hb'))
      _ (hf st b (List.mem_cons_self _ _) h)

/-- C5: in the poll cycle's change-detection step, a change notification
fires for a response task if and only if a prior combined state was
recorded for its identifier and the newly computed combined state
(phase plus execution flag) differs from it; when they are equal, or no
prior state exists, the notification log is unchanged; and seeding a
state via setKnownState never appends a notification. -/
theorem poller_change_detection (projectId : String) (s : PollerState)
    (task : VKTask) (tid status : String) (executing : Bool) :
    ((changeStep projectId s task).notifications = s.notifications ++ [task] ↔
      ∃ ls, mGet s.lastKnownStates task.id = some ls ∧
        ls ≠ combined task.status task.has_in_progress_attempt) ∧
    ((changeStep projectId s task).notifications = s.notifications ↔
      ¬ ∃ ls, mGet s.lastKnownStates task.id = some ls ∧
        ls ≠ combined task.status task.has_in_progress_attempt) ∧
    (setKnownState s tid status executing).notifications = s.notifications := by
  have hcond : (mGet s.lastKnownStates task.id ≠ none ∧
        mGet s.lastKnownStates task.id ≠
          some (combined task.status task.has_in_progress_attempt)) ↔
      (∃ ls, mGet s.lastKnownStates task.id = some ls ∧
        ls ≠ combined task.status task.has_in_progress_attempt) := by
    cases h : mGet s.lastKnownStates task.id <;> simp [h]
  have hnot : (changeStep projectId s task).notifications =
      if mGet s.lastKnownStates task.id ≠ none ∧
          mGet s.lastKnownStates task.id ≠
            some (combined task.status task.has_in_progress_attempt) then
        s.notifications ++ [task]
      else s.notifications := rfl
  refine ⟨?_, ?_, rfl⟩
  · rw [hnot]
    split
    · next hc => exact iff_of_true rfl (hcond.mp hc)
    · next hc =>
      constructor
      · intro h
        have := congrArg List.length h
        simp at this
      · intro h
        exact absurd (hcond.mpr h) hc
  · rw [hnot]
    split
    · next hc =>
      constructor
      · intro h
        have := congrArg List.length h
        simp at this
      · intro h
        exact absurd (hcond.mp hc) h
    · next hc => exact iff_of_true rfl (fun h => hc (hcond.mpr h))

/-- C3: the deletion-detection guard compares the recorded combined state
(always of the form "status:executing", e.g. "deleted:false") against the
bare string "deleted", which never matches, so a tracked task whose last
known phase is already deleted and that is absent from its project's
successful fetch still triggers a synthetic deletion notification — the
claim (and the guard's evident intent) say no notification should fire.
Evaluated at the failing input: task X actively tracked for project P with
combined state "deleted:false" (phase component "deleted"), and a
successful fetch for P that omits X. -/
theorem poller_renotifies_deleted_phase :
    statusOf "deleted:false" = "deleted" ∧
    mGet deletedPhaseState.lastKnownStates "X" = some "deleted:false" ∧
    (pollCycle deletedPhaseState (fun _ => FetchResult.response 200 [])).notifications
      = [syntheticDeletion "X" "P"] :=
  ⟨rfl, rfl, rfl⟩

theorem sameControls_refl (a : PollerState) : sameControls a a :=
  ⟨rfl, rfl, rfl, rfl, rfl, rfl⟩

theorem sameControls_trans {a b c : PollerState}
    (h1 : sameControls a b) (h2 : sameControls b c) : sameControls a c :=
  ⟨h1.1.trans h2.1, h1.2.1.trans h2.2.1, h1.2.2.1.trans h2.2.2.1,
    h1.2.2.2.1.trans h2.2.2.2.1, h1.2.2.2.2.1.trans h2.2.2.2.2.1,
    h1.2.2.2.2.2.trans h2.2.2.2.2.2⟩

theorem deletionStep_controls (pid : String) (ids : List String)
    (st : PollerState) (e : String × String) :
    sameControls (deletionStep pid ids st e) st := by
  unfold deletionStep
  repeat' split
  all_goals exact ⟨rfl, rfl, rfl, rfl, rfl, rfl⟩

theorem changeStep_controls (pid : String) (st : PollerState) (t : VKTask) :
    sameControls (changeStep pid st t) st :=
  ⟨rfl, rfl, rfl, rfl, rfl, rfl⟩

theorem cleanupStep_controls (st : PollerState) (e : String × String) :
    sameControls (cleanupStep st e) st := by
  unfold cleanupStep
  split
  all_goals exact ⟨rfl, rfl, rfl, rfl, rfl, rfl⟩

theorem deletionPass_controls (s : PollerState) (pid : String) (ids : List String) :
    sameControls (deletionPass s pid ids) s :=
  foldl_inv (fun st => sameControls st s) (deletionStep pid ids) s.taskProjectMap
    (fun st b _ h => sameControls_trans (deletionStep_controls pid ids st b) h)
    s (sameControls_refl s)

theorem changePass_controls (s : PollerState) (pid : String) (tasks : List VKTask) :
    sameControls (changePass s pid tasks) s :=
  foldl_inv (fun st => sameControls st s) (changeStep pid) tasks
    (fun st b _ h => sameControls_trans (changeStep_controls pid st b) h)
    s (sameControls_refl s)

theorem cleanupTerminalTasks_controls (s : PollerState) :
    sameControls (cleanupTerminalTasks s) s :=
  foldl_inv (fun st => sameControls st s) cleanupStep s.lastKnownStates
    (fun st b _ h => sameControls_trans (cleanupStep_controls st b) h)
    s (sameControls_refl s)

theorem evictLoop_controls (keys : List String) :
    ∀ (need : Nat) (s : PollerState), sameControls (evictLoop s need keys) s := by
  induction keys with
  | nil => intro need s; exact sameControls_refl s
  | cons key rest ih =>
    intro need s
    unfold evictLoop
    split
    · exact sameControls_refl s
    · split
      · exact ih need s
      · exact sameControls_trans (ih _ _) ⟨rfl, rfl, rfl, rfl, rfl, rfl⟩

theorem capacityEvict_controls (s : PollerState) :
    sameControls (capacityEvict s) s := by
  unfold capacityEvict
  split
  · exact evictLoop_controls _ _ _
  · exact sameControls_refl s

theorem processResponse_controls (s : PollerState) (pid : String)
    (tasks : List VKTask) :
    sameControls (processResponse s pid tasks) s := by
  unfold processResponse
  exact sameControls_trans (capacityEvict_controls _)
    (sameControls_trans (cleanupTerminalTasks_controls _)
      (sameControls_trans (changePass_controls _ _ _)
        (deletionPass_controls _ _ _)))

theorem processProject_controls (s : PollerState) (pid : String) (r : FetchResult) :
    sameControls (processProject s pid r).1 s ∧
    (processProject s pid r).2 = decide (r = FetchResult.fetchError) := by
  cases r with
  | fetchError => exact ⟨sameControls_refl s, rfl⟩
  | response status tasks =>
    by_cases hs : status = 200
    · have h1 : processProject s pid (FetchResult.response status tasks) =
          (processResponse s pid tasks, false) := by
        unfold processProject
        simp [hs]
      rw [h1]
      exact ⟨processResponse_controls s pid tasks, by simp⟩
    · have h1 : processProject s pid (FetchResult.response status tasks) = (s, false) := by
        unfold processProject
        simp [hs]
      rw [h1]
      exact ⟨sameControls_refl s, by simp⟩

theorem updateBackoff_fields (s : PollerState) (he : Bool) :
    (updateBackoff s he).isPolling = s.isPolling ∧
    (updateBackoff s he).projectIds = s.projectIds ∧
    (updateBackoff s he).notifications = s.notifications ∧
    (updateBackoff s he).timerScheduled = s.timerScheduled ∧
    (updateBackoff s he).lastKnownStates = s.lastKnownStates ∧
    (updateBackoff s he).activeTaskIds = s.activeTaskIds := by
  unfold updateBackoff
  split <;> exact ⟨rfl, rfl, rfl, rfl, rfl, rfl⟩

theorem updateBackoff_true (s : PollerState) :
    (updateBackoff s true).consecutiveErrors = s.consecutiveErrors + 1 ∧
    (updateBackoff s true).currentBackoff =
      min (baseBackoff * 2 ^ s.consecutiveErrors) maxBackoff :=
  ⟨rfl, rfl⟩

theorem updateBackoff_false (s : PollerState) :
    (updateBackoff s false).consecutiveErrors = 0 ∧
    (updateBackoff s false).currentBackoff = pollInterval :=
  ⟨rfl, rfl⟩

theorem pollLoop_cons_noStop (fetch : String → FetchResult) (s : PollerState)
    (acc : Bool) (p : String) (rest : List String)
    (h1 : p ∈ s.projectIds) (h2 : s.isPolling = true) :
    pollLoop fetch (fun _ => false) s acc (p :: rest) =
      pollLoop fetch (fun _ => false) (processProject s p (fetch p)).1
        (acc || (processProject s p (fetch p)).2) rest := by
  conv_lhs => unfold pollLoop
  rw [if_pos h1, if_neg (by simp [h2])]
  rfl

theorem pollLoop_noStop (fetch : String → FetchResult) (ps : List String) :
    ∀ (s : PollerState) (acc : Bool), s.isPolling = true →
      (∀ p ∈ ps, p ∈ s.projectIds) →
      sameControls (pollLoop fetch (fun _ => false) s acc ps).1 s ∧
      (pollLoop fetch (fun _ => false) s acc ps).2.1 =
        (acc || ps.any (fun p => decide (fetch p = FetchResult.fetchError))) ∧
      (pollLoop fetch (fun _ => false) s acc ps).2.2 = true := by
  induction ps with
  | nil =>
    intro s acc h _
    exact ⟨sameControls_refl s, by simp [pollLoop], rfl⟩
  | cons p rest ih =>
    intro s acc hpoll hmem
    have hp : p ∈ s.projectIds := hmem p (List.mem_cons_self _ _)
    have hpp := processProject_controls s p (fetch p)
    have hpoll2 : (processProject s p (fetch p)).1.isPolling = true := by
      rw [hpp.1.1, hpoll]
    have hmem2 : ∀ q ∈ rest, q ∈ (processProject s p (fetch p)).1.projectIds := by
      intro q hq
      rw [hpp.1.2.1]
      exact hmem q (List.mem_cons_of_mem _ hq)
    have hrec := ih (processProject s p (fetch p)).1
      (acc || (processProject s p (fetch p)).2) hpoll2 hmem2
    rw [pollLoop_cons_noStop fetch s acc p rest hp hpoll]
    refine ⟨sameControls_trans hrec.1 hpp.1, ?_, hrec.2.2⟩
    rw [hrec.2.1, hpp.2, List.any_cons]
    cases acc <;> cases hres : decide (fetch p = FetchResult.fetchError) <;> simp

theorem pollCycle_run (s : PollerState) (fetch : String → FetchResult)
    (hpoll : s.isPolling = true) :
    pollCycle s fetch =
      pollFinish (pollLoop fetch (fun _ => false) s false s.projectIds) := by
  unfold pollCycle poll
  rw [if_neg (by simp [hpoll])]

theorem pollCycle_error_step (s : PollerState) (f : String → FetchResult)
    (hpoll : s.isPolling = true)
    (herr : ∃ p ∈ s.projectIds, f p = FetchResult.fetchError) :
    (pollCycle s f).isPolling = true ∧
    (pollCycle s f).projectIds = s.projectIds ∧
    (pollCycle s f).consecutiveErrors = s.consecutiveErrors + 1 ∧
    (pollCycle s f).currentBackoff =
      min (baseBackoff * 2 ^ s.consecutiveErrors) maxBackoff := by
  have hl := pollLoop_noStop f s.projectIds s false hpoll (fun p hp => hp)
  set r := pollLoop f (fun _ => false) s false s.projectIds with hr
  have hany : (s.projectIds.any
      (fun p => decide (f p = FetchResult.fetchError))) = true := by
    rw [List.any_eq_true]
    obtain ⟨p, hp, hfp⟩ := herr
    exact ⟨p, hp, by simp [hfp]⟩
  have herr2 : r.2.1 = true := by
    rw [hl.2.1]
    simp [hany]
  have hub := updateBackoff_fields r.1 r.2.1
  have hfin : pollFinish r = { updateBackoff r.1 r.2.1 with timerScheduled := true } := by
    unfold pollFinish
    rw [hl.2.2, if_pos rfl, hub.1, hl.1.1, hpoll, if_pos rfl]
  rw [pollCycle_run s f hpoll, ← hr, hfin, herr2]
  have hubt := updateBackoff_true r.1
  have hubf := updateBackoff_fields r.1 true
  refine ⟨?_, ?_, ?_, ?_⟩
  · show (updateBackoff r.1 true).isPolling = true
    rw [hubf.1, hl.1.1, hpoll]
  · show (updateBackoff r.1 true).projectIds = s.projectIds
    rw [hubf.2.1, hl.1.2.1]
  · show (updateBackoff r.1 true).consecutiveErrors = s.consecutiveErrors + 1
    rw [hubt.1, hl.1.2.2.2.1]
  · show (updateBackoff r.1 true).currentBackoff =
      min (baseBackoff * 2 ^ s.consecutiveErrors) maxBackoff
    rw [hubt.2, hl.1.2.2.2.1]

theorem pollCycle_ok_step (s : PollerState) (f : String → FetchResult)
    (hpoll : s.isPolling = true)
    (hok : ∀ p ∈ s.projectIds, ¬ f p = FetchResult.fetchError) :
    (pollCycle s f).isPolling = true ∧
    (pollCycle s f).projectIds = s.projectIds ∧
    (pollCycle s f).consecutiveErrors = 0 ∧
    (pollCycle s f).currentBackoff = pollInterval := by
  have hl := pollLoop_noStop f s.projectIds s false hpoll (fun p hp => hp)
  set r := pollLoop f (fun _ => false) s false s.projectIds with hr
  have hany : (s.projectIds.any
      (fun p => decide (f p = FetchResult.fetchError))) = false := by
    rw [List.any_eq_false]
    intro p hp
    simp [hok p hp]
  have herr2 : r.2.1 = false := by
    rw [hl.2.1]
    simp [hany]
  have hub := updateBackoff_fields r.1 r.2.1
  have hfin : pollFinish r = { updateBackoff r.1 r.2.1 with timerScheduled := true } := by
    unfold pollFinish
    rw [hl.2.2, if_pos rfl, hub.1, hl.1.1, hpoll, if_pos rfl]
  rw [pollCycle_run s f hpoll, ← hr, hfin, herr2]
  have hubf := updateBackoff_fields r.1 false
  refine ⟨?_, ?_, ?_, ?_⟩
  · show (updateBackoff r.1 false).isPolling = true
    rw [hubf.1, hl.1.1, hpoll]
  · show (updateBackoff r.1 false).projectIds = s.projectIds
    rw [hubf.2.1, hl.1.2.1]
  · exact (updateBackoff_false r.1).1
  · exact (updateBackoff_false r.1).2

theorem pollCycles_allError (fs : List (String → FetchResult)) :
    ∀ s : PollerState, s.isPolling = true →
      (∀ f ∈ fs, ∃ p ∈ s.projectIds, f p = FetchResult.fetchError) →
      (pollCycles s fs).isPolling = true ∧
      (pollCycles s fs).projectIds = s.projectIds ∧
      (pollCycles s fs).consecutiveErrors = s.consecutiveErrors + fs.length ∧
      (fs ≠ [] →
        (pollCycles s fs).currentBackoff =
          min (baseBackoff * 2 ^ (s.consecutiveErrors + fs.length - 1)) maxBackoff) := by
  induction fs with
  | nil =>
    intro s h _
    exact ⟨h, rfl, by simp [pollCycles], fun hne => absurd rfl hne⟩
  | cons f fs ih =>
    intro s hpoll hall
    have hstep := pollCycle_error_step s f hpoll (hall f (List.mem_cons_self _ _))
    have hrec := ih (pollCycle s f) hstep.1 (by
      rw [hstep.2.1]
      exact fun g hg => hall g (List.mem_cons_of_mem _ hg))
    have hcyc : pollCycles s (f :: fs) = pollCycles (pollCycle s f) fs := rfl
    rw [hcyc]
    refine ⟨hrec.1, by rw [hrec.2.1, hstep.2.1], ?_, ?_⟩
    · rw [hrec.2.2.1, hstep.2.2.1, List.length_cons]
      omega
    · intro _
      cases fs with
      | nil =>
        show (pollCycle s f).currentBackoff = _
        simpa using hstep.2.2.2
      | cons g gs =>
        rw [hrec.2.2.2 (List.cons_ne_nil _ _), hstep.2.2.1]
        simp only [List.length_cons]
        have hE2 : s.consecutiveErrors + 1 + (gs.length + 1) - 1 =
            s.consecutiveErrors + (gs.length + 1 + 1) - 1 := by omega
        rw [hE2]

/-- C6: starting from a zero consecutive-error counter, after N >= 1
consecutive poll cycles each containing at least one project fetch failure
the interval computed for the next cycle equals
min(base * 2^(N-1), max) with base 5000 and max 60000 (5000, 10000,
20000 for N = 1, 2, 3), and the consecutive-error counter equals N; one
further cycle in which no project's fetch fails resets the counter to zero
and the next interval to the base poll interval of 5000. -/
theorem poller_backoff_growth_reset (s : PollerState)
    (fs : List (String → FetchResult)) (g : String → FetchResult)
    (hrun : s.isPolling = true) (h0 : s.consecutiveErrors = 0) (hne : fs ≠ [])
    (hall : ∀ f ∈ fs, ∃ p ∈ s.projectIds, f p = FetchResult.fetchError)
    (hg : ∀ p ∈ s.projectIds, ¬ g p = FetchResult.fetchError) :
    (pollCycles s fs).currentBackoff = min (5000 * 2 ^ (fs.length - 1)) 60000 ∧
    (pollCycles s fs).consecutiveErrors = fs.length ∧
    (pollCycle (pollCycles s fs) g).consecutiveErrors = 0 ∧
    (pollCycle (pollCycles s fs) g).currentBackoff = 5000 := by
  have hgrow := pollCycles_allError fs s hrun hall
  have hreset := pollCycle_ok_step (pollCycles s fs) g hgrow.1
    (by rw [hgrow.2.1]; exact hg)
  refine ⟨?_, ?_, hreset.2.2.1, hreset.2.2.2⟩
  · show (pollCycles s fs).currentBackoff =
      min (baseBackoff * 2 ^ (fs.length - 1)) maxBackoff
    rw [hgrow.2.2.2 hne, h0, Nat.zero_add]
  · rw [hgrow.2.2.1, h0, Nat.zero_add]

/-- Witness for C6 at a concrete input: one failing cycle for project P
from a fresh running poller, then one fully successful cycle. -/
theorem poller_backoff_growth_reset_witness :
    preStopState.isPolling = true ∧
    preStopState.consecutiveErrors = 0 ∧
    ([errOracle] : List (String → FetchResult)) ≠ [] ∧
    (∀ f ∈ ([errOracle] : List (String → FetchResult)),
      ∃ p ∈ preStopState.projectIds, f p = FetchResult.fetchError) ∧
    (∀ p ∈ preStopState.projectIds, ¬ okOracle p = FetchResult.fetchError) ∧
    ((pollCycles preStopState [errOracle]).currentBackoff =
        min (5000 * 2 ^ (([errOracle] : List (String → FetchResult)).length - 1)) 60000 ∧
      (pollCycles preStopState [errOracle]).consecutiveErrors =
        ([errOracle] : List (String → FetchResult)).length ∧
      (pollCycle (pollCycles preStopState [errOracle]) okOracle).consecutiveErrors = 0 ∧
      (pollCycle (pollCycles preStopState [errOracle]) okOracle).currentBackoff = 5000) :=
  ⟨rfl, rfl, List.cons_ne_nil _ _,
    fun f hf => by
      simp only [List.mem_singleton] at hf
      subst hf
      exact ⟨"P", List.mem_cons_self _ _, rfl⟩,
    fun p hp h => FetchResult.noConfusion h,
    poller_backoff_growth_reset preStopState [errOracle] okOracle rfl rfl
      (List.cons_ne_nil _ _)
      (fun f hf => by
        simp only [List.mem_singleton] at hf
        subst hf
        exact ⟨"P", List.mem_cons_self _ _, rfl⟩)
      (fun p hp h => FetchResult.noConfusion h)⟩

theorem cleanup_preserves_active (s : PollerState) (tid : String)
    (h : tid ∈ s.activeTaskIds) :
    mGet (cleanupTerminalTasks s).lastKnownStates tid = mGet s.lastKnownStates tid ∧
    mGet (cleanupTerminalTasks s).taskProjectMap tid = mGet s.taskProjectMap tid := by
  have hinv := foldl_inv
    (fun st => st.activeTaskIds = s.activeTaskIds ∧
      mGet st.lastKnownStates tid = mGet s.lastKnownStates tid ∧
      mGet st.taskProjectMap tid = mGet s.taskProjectMap tid)
    cleanupStep s.lastKnownStates
    (fun st b _ hP => by
      unfold cleanupStep
      split
      · next hc =>
        have hbt : ¬ tid = b.1 := by
          intro he
          apply hc.2
          rw [← he, hP.1]
          exact h
        refine ⟨hP.1, ?_, ?_⟩
        · show mGet (mDel st.lastKnownStates b.1) tid = _
          rw [mGet_mDel_ne _ _ _ hbt, hP.2.1]
        · show mGet (mDel st.taskProjectMap b.1) tid = _
          rw [mGet_mDel_ne _ _ _ hbt, hP.2.2]
      · exact hP)
    s ⟨rfl, rfl, rfl⟩
  exact ⟨hinv.2.1, hinv.2.2⟩

theorem evictLoop_preserves_active (tid : String) (keys : List String) :
    ∀ (need : Nat) (s : PollerState), tid ∈ s.activeTaskIds →
      mGet (evictLoop s need keys).lastKnownStates tid = mGet s.lastKnownStates tid ∧
      mGet (evictLoop s need keys).taskProjectMap tid = mGet s.taskProjectMap tid := by
  induction keys with
  | nil => intro need s _; exact ⟨rfl, rfl⟩
  | cons key rest ih =>
    intro need s hact
    unfold evictLoop
    split
    · exact ⟨rfl, rfl⟩
    · split
      · exact ih need s hact
      · next hneed hkey =>
        have hkt : ¬ tid = key := by
          intro he
          apply hkey
          rw [← he]
          exact hact
        have hrec := ih (need - 1)
          { s with lastKnownStates := mDel s.lastKnownStates key
                   taskProjectMap := mDel s.taskProjectMap key } hact
        refine ⟨?_, ?_⟩
        · rw [hrec.1]
          show mGet (mDel s.lastKnownStates key) tid = _
          exact mGet_mDel_ne _ _ _ hkt
        · rw [hrec.2]
          show mGet (mDel s.taskProjectMap key) tid = _
          exact mGet_mDel_ne _ _ _ hkt

/-- C7: a task identifier that is a member of the active set is never
removed from lastKnownStates or taskProjectMap by terminal-state cleanup or
by capacity eviction: its recorded entries (whatever their phase, including
terminal phases, and however old) are exactly preserved by both passes. -/
theorem poller_active_exempt (s : PollerState) (tid : String)
    (h : tid ∈ s.activeTaskIds) :
    mGet (cleanupTerminalTasks s).lastKnownStates tid = mGet s.lastKnownStates tid ∧
    mGet (cleanupTerminalTasks s).taskProjectMap tid = mGet s.taskProjectMap tid ∧
    mGet (capacityEvict s).lastKnownStates tid = mGet s.lastKnownStates tid ∧
    mGet (capacityEvict s).taskProjectMap tid = mGet s.taskProjectMap tid := by
  have h1 := cleanup_preserves_active s tid h
  have h2 : mGet (capacityEvict s).lastKnownStates tid = mGet s.lastKnownStates tid ∧
      mGet (capacityEvict s).taskProjectMap tid = mGet s.taskProjectMap tid := by
    unfold capacityEvict
    split
    · exact evictLoop_preserves_active tid _ _ s h
    · exact ⟨rfl, rfl⟩
  exact ⟨h1.1, h1.2, h2.1, h2.2⟩

/-- Witness for C7 at a concrete input: the actively tracked task X with
terminal phase "deleted" survives both cleanup passes untouched. -/
theorem poller_active_exempt_witness :
    "X" ∈ deletedPhaseState.activeTaskIds ∧
    (mGet (cleanupTerminalTasks deletedPhaseState).lastKnownStates "X" =
        mGet deletedPhaseState.lastKnownStates "X" ∧
      mGet (cleanupTerminalTasks deletedPhaseState).taskProjectMap "X" =
        mGet deletedPhaseState.taskProjectMap "X" ∧
      mGet (capacityEvict deletedPhaseState).lastKnownStates "X" =
        mGet deletedPhaseState.lastKnownStates "X" ∧
      mGet (capacityEvict deletedPhaseState).taskProjectMap "X" =
        mGet deletedPhaseState.taskProjectMap "X") :=
  ⟨List.mem_cons_self _ _,
    poller_active_exempt deletedPhaseState "X" (List.mem_cons_self _ _)⟩

theorem evictLoop_filter (keys : List String) :
    ∀ (need : Nat) (s : PollerState),
      (evictLoop s need keys).lastKnownStates =
        s.lastKnownStates.filter
          (fun e => ¬ e.1 ∈
            ((keys.filter (fun k => ¬ k ∈ s.activeTaskIds)).take need)) := by
  induction keys with
  | nil =>
    intro need s
    simp [evictLoop]
  | cons key rest ih =>
    intro need s
    unfold evictLoop
    split
    · next hneed =>
      subst hneed
      simp
    · next hneed =>
      split
      · next hkey =>
        rw [ih need s]
        congr 1
        rw [List.filter_cons]
        simp [hkey]
      · next hkey =>
        rw [ih (need - 1)
          { s with lastKnownStates := mDel s.lastKnownStates key
                   taskProjectMap := mDel s.taskProjectMap key }]
        show (mDel s.lastKnownStates key).filter
            (fun e => ¬ e.1 ∈
              ((rest.filter (fun k => ¬ k ∈ s.activeTaskIds)).take (need - 1))) = _
        have hcons : (key :: rest).filter (fun k => ¬ k ∈ s.activeTaskIds) =
            key :: rest.filter (fun k => ¬ k ∈ s.activeTaskIds) := by
          rw [List.filter_cons]
          simp [hkey]
        rw [hcons, List.take_cons (Nat.pos_of_ne_zero hneed)]
        unfold mDel
        rw [List.filter_filter]
        apply List.filter_congr
        intro a _
        rw [← Bool.decide_and, decide_eq_decide]
        simp only [List.mem_cons, not_or, ne_eq]
        constructor
        · intro hh
          exact ⟨fun he => hh.2 he, hh.1⟩
        · intro hh
          exact ⟨hh.2, hh.1⟩

theorem filter_ne_key_of_not_mem (m : List (String × String)) (k : String)
    (h : ¬ k ∈ m.map Prod.fst) :
    m.filter (fun e => e.1 ≠ k) = m := by
  rw [List.filter_eq_self]
  intro e he
  simp only [ne_eq, decide_eq_true_eq]
  exact fun hek => h (List.mem_map.mpr ⟨e, he, hek⟩)

theorem filter_ne_key_length (k : String) (m : List (String × String))
    (hnd : (m.map Prod.fst).Nodup) (hmem : k ∈ m.map Prod.fst) :
    (m.filter (fun e => e.1 ≠ k)).length = m.length - 1 := by
  induction m with
  | nil => simp at hmem
  | cons e rest ih =>
    rw [List.map_cons, List.nodup_cons] at hnd
    rw [List.map_cons, List.mem_cons] at hmem
    by_cases hek : e.1 = k
    · have h1 : (e :: rest).filter (fun e => e.1 ≠ k) =
          rest.filter (fun e => e.1 ≠ k) := by
        rw [List.filter_cons]
        simp [hek]
      rw [h1, filter_ne_key_of_not_mem rest k (by rw [← hek]; exact hnd.1)]
      simp
    · have h1 : (e :: rest).filter (fun e => e.1 ≠ k) =
          e :: rest.filter (fun e => e.1 ≠ k) := by
        rw [List.filter_cons]
        simp [hek]
      have hkm : k ∈ List.map Prod.fst rest := by
        rcases hmem with h | h
        · exact absurd h.symm hek
        · exact h
      have hlen : 1 ≤ rest.length := by
        cases rest with
        | nil => simp at hkm
        | cons _ _ => simp
      rw [h1, List.length_cons, ih hnd.2 hkm, List.length_cons]
      omega

theorem filter_not_mem_keys_length (ks : List String) :
    ∀ (m : List (String × String)), (m.map Prod.fst).Nodup → ks.Nodup →
      (∀ k ∈ ks, k ∈ m.map Prod.fst) →
      (m.filter (fun e => ¬ e.1 ∈ ks)).length = m.length - ks.length := by
  induction ks with
  | nil =>
    intro m _ _ _
    simp
  | cons k ks ih =>
    intro m hm hks hsub
    rw [List.nodup_cons] at hks
    have hcomp : m.filter (fun e => ¬ e.1 ∈ k :: ks) =
        (m.filter (fun e => e.1 ≠ k)).filter (fun e => ¬ e.1 ∈ ks) := by
      rw [List.filter_filter]
      apply List.filter_congr
      intro a _
      rw [← Bool.decide_and, decide_eq_decide]
      simp only [List.mem_cons, not_or, ne_eq]
      constructor
      · intro hh
        exact ⟨hh.2, hh.1⟩
      · intro hh
        exact ⟨hh.2, hh.1⟩
    have hm'len : (m.filter (fun e => e.1 ≠ k)).length = m.length - 1 :=
      filter_ne_key_length k m hm (hsub k (List.mem_cons_self _ _))
    have hm'nd : ((m.filter (fun e => e.1 ≠ k)).map Prod.fst).Nodup :=
      List.Nodup.sublist (List.Sublist.map Prod.fst (List.filter_sublist m)) hm
    have hsub' : ∀ k' ∈ ks, k' ∈ (m.filter (fun e => e.1 ≠ k)).map Prod.fst := by
      intro k' hk'
      have h1 := hsub k' (List.mem_cons_of_mem _ hk')
      obtain ⟨e, he, hek⟩ := List.mem_map.mp h1
      apply List.mem_map.mpr
      refine ⟨e, ?_, hek⟩
      apply List.mem_filter.mpr
      refine ⟨he, ?_⟩
      simp only [ne_eq, decide_eq_true_eq]
      intro hek2
      apply hks.1
      have hkk : k = k' := by rw [← hek2, hek]
      rw [hkk]
      exact hk'
    have hmlen : 1 ≤ m.length := by
      have h1 := hsub k (List.mem_cons_self _ _)
      cases m with
      | nil => simp at h1
      | cons _ _ => simp
    rw [hcomp, ih (m.filter (fun e => e.1 ≠ k)) hm'nd hks.2 hsub', hm'len,
      List.length_cons]
    omega

theorem inactive_keys_length (m : List (String × String)) (act : List String) :
    ((m.map Prod.fst).filter (fun k => ¬ k ∈ act)).length =
      m.length - (m.filter (fun e => e.1 ∈ act)).length := by
  have h1 : ((m.map Prod.fst).filter (fun k => ¬ k ∈ act)) =
      (m.filter (fun e => ¬ e.1 ∈ act)).map Prod.fst := by
    rw [List.filter_map]
    rfl
  rw [h1, List.length_map]
  have h2 := List.length_eq_length_filter_add (l := m) (fun e => decide (e.1 ∈ act))
  have h3 : m.filter (fun e => ¬ e.1 ∈ act) =
      m.filter (fun e => ! decide (e.1 ∈ act)) := by
    apply List.filter_congr
    intro a _
    simp [decide_not]
  rw [h3]
  omega

/-- C8: after a capacity-eviction pass, the remaining tracked map is the
original minus exactly the evicted keys, which are the oldest-insertion
inactive keys (identifiers absent from the active set, in insertion order,
up to the excess over the cap); consequently the tracked-task count is at
most the cap of 1000 unless the entries with active identifiers alone
exceed the cap, in which case those active entries are all preserved and
the count equals their number (exceeding the cap by exactly the number of
active over-cap entries). -/
theorem poller_capacity_bound (s : PollerState)
    (hnd : (s.lastKnownStates.map Prod.fst).Nodup) :
    (capacityEvict s).lastKnownStates =
      s.lastKnownStates.filter (fun e => ¬ e.1 ∈ evictedKeys s) ∧
    (capacityEvict s).lastKnownStates.length =
      max (min s.lastKnownStates.length maxTrackedTasks)
        ((s.lastKnownStates.filter (fun e => e.1 ∈ s.activeTaskIds)).length) := by
  by_cases hover : s.lastKnownStates.length > maxTrackedTasks
  · have hce : capacityEvict s =
        evictLoop s (s.lastKnownStates.length - maxTrackedTasks)
          (s.lastKnownStates.map Prod.fst) := by
      unfold capacityEvict
      rw [if_pos hover]
    have hek : evictedKeys s =
        ((s.lastKnownStates.map Prod.fst).filter
          (fun k => ¬ k ∈ s.activeTaskIds)).take
          (s.lastKnownStates.length - maxTrackedTasks) := by
      unfold evictedKeys
      rw [if_pos hover]
    have hchar := evictLoop_filter (s.lastKnownStates.map Prod.fst)
      (s.lastKnownStates.length - maxTrackedTasks) s
    refine ⟨by rw [hce, hchar, hek], ?_⟩
    rw [hce, hchar]
    have hfil_nd : ((s.lastKnownStates.map Prod.fst).filter
        (fun k => ¬ k ∈ s.activeTaskIds)).Nodup :=
      List.Nodup.sublist (List.filter_sublist _) hnd
    have hksnd : (((s.lastKnownStates.map Prod.fst).filter
        (fun k => ¬ k ∈ s.activeTaskIds)).take
        (s.lastKnownStates.length - maxTrackedTasks)).Nodup :=
      List.Nodup.sublist (List.take_sublist _ _) hfil_nd
    have hkssub : ∀ k ∈ (((s.lastKnownStates.map Prod.fst).filter
        (fun k => ¬ k ∈ s.activeTaskIds)).take
        (s.lastKnownStates.length - maxTrackedTasks)),
        k ∈ s.lastKnownStates.map Prod.fst := by
      intro k hk
      exact (List.mem_filter.mp (List.mem_of_mem_take hk)).1
    have hcount := filter_not_mem_keys_length _ s.lastKnownStates hnd hksnd hkssub
    rw [hcount, List.length_take, inactive_keys_length s.lastKnownStates s.activeTaskIds]
    have hA_le : (s.lastKnownStates.filter
        (fun e => e.1 ∈ s.activeTaskIds)).length ≤ s.lastKnownStates.length :=
      List.length_filter_le _ _
    omega
  · have hce : capacityEvict s = s := by
      unfold capacityEvict
      rw [if_neg hover]
    have hek : evictedKeys s = [] := by
      unfold evictedKeys
      rw [if_neg hover]
    refine ⟨by rw [hce, hek]; simp, ?_⟩
    rw [hce]
    have hA_le : (s.lastKnownStates.filter
        (fun e => e.1 ∈ s.activeTaskIds)).length ≤ s.lastKnownStates.length :=
      List.length_filter_le _ _
    omega

/-- Witness for C8 at a concrete input: a two-entry tracked map with one
active identifier, below the cap, so nothing is evicted. -/
theorem poller_capacity_bound_witness :
    (deletedPhaseState.lastKnownStates.map Prod.fst).Nodup ∧
    ((capacityEvict deletedPhaseState).lastKnownStates =
        deletedPhaseState.lastKnownStates.filter
          (fun e => ¬ e.1 ∈ evictedKeys deletedPhaseState) ∧
      (capacityEvict deletedPhaseState).lastKnownStates.length =
        max (min deletedPhaseState.lastKnownStates.length maxTrackedTasks)
          ((deletedPhaseState.lastKnownStates.filter
            (fun e => e.1 ∈ deletedPhaseState.activeTaskIds)).length)) :=
  ⟨by decide, poller_capacity_bound deletedPhaseState (by decide)⟩

theorem cleanupTerminalTasks_notifications (s : PollerState) :
    (cleanupTerminalTasks s).notifications = s.notifications :=
  foldl_inv (fun st => st.notifications = s.notifications) cleanupStep
    s.lastKnownStates
    (fun st b _ h => by
      unfold cleanupStep
      split
      · exact h
      · exact h)
    s rfl

theorem evictLoop_notifications (keys : List String) :
    ∀ (need : Nat) (s : PollerState),
      (evictLoop s need keys).notifications = s.notifications := by
  induction keys with
  | nil => exact fun need s => rfl
  | cons key rest ih =>
    intro need s
    unfold evictLoop
    split
    · rfl
    · split
      · exact ih need s
      · exact ih (need - 1) _

theorem capacityEvict_notifications (s : PollerState) :
    (capacityEvict s).notifications = s.notifications := by
  unfold capacityEvict
  split
  · exact evictLoop_notifications _ _ _
  · rfl

theorem deletionStep_stable (pid : String) (ids : List String) (tid : String)
    (x : VKTask) (st : PollerState) (e : String × String)
    (h1 : mGet st.lastKnownStates tid = none)
    (h2 : mGet st.taskProjectMap tid = none)
    (h3 : x ∈ st.notifications) :
    mGet (deletionStep pid ids st e).lastKnownStates tid = none ∧
    mGet (deletionStep pid ids st e).taskProjectMap tid = none ∧
    x ∈ (deletionStep pid ids st e).notifications := by
  unfold deletionStep
  repeat' split
  all_goals
    refine ⟨?_, ?_, ?_⟩ <;>
      first
        | exact mGet_mDel_none _ _ _ h1
        | exact mGet_mDel_none _ _ _ h2
        | exact h1
        | exact h2
        | exact h3
        | exact List.mem_append_left _ h3

theorem deletionStep_other (pid : String) (ids : List String) (tid : String)
    (st : PollerState) (e : String × String) (hne : ¬ e.1 = tid) :
    mGet (deletionStep pid ids st e).lastKnownStates tid =
      mGet st.lastKnownStates tid ∧
    mGet (deletionStep pid ids st e).taskProjectMap tid =
      mGet st.taskProjectMap tid := by
  unfold deletionStep
  repeat' split
  all_goals
    constructor <;>
      first
        | rfl
        | exact mGet_mDel_ne _ _ _ (fun hh => hne hh.symm)

theorem deletionPass_stable (pid : String) (ids : List String) (tid : String)
    (x : VKTask) (l : List (String × String)) :
    ∀ st : PollerState,
      mGet st.lastKnownStates tid = none →
      mGet st.taskProjectMap tid = none →
      x ∈ st.notifications →
      mGet (l.foldl (deletionStep pid ids) st).lastKnownStates tid = none ∧
      mGet (l.foldl (deletionStep pid ids) st).taskProjectMap tid = none ∧
      x ∈ (l.foldl (deletionStep pid ids) st).notifications := by
  induction l with
  | nil => exact fun st a b c => ⟨a, b, c⟩
  | cons e rest ih =>
    intro st a b c
    have hstep := deletionStep_stable pid ids tid x st e a b c
    exact ih (deletionStep pid ids st e) hstep.1 hstep.2.1 hstep.2.2

theorem deletionPass_removes (pid tid cs : String) (ids : List String)
    (hcs1 : ¬ cs = "") (hcs2 : ¬ cs = "deleted") (habs : ¬ tid ∈ ids)
    (l : List (String × String)) :
    ∀ st : PollerState,
      l.find? (fun e => decide (e.1 = tid)) = some (tid, pid) →
      mGet st.lastKnownStates tid = some cs →
      mGet (l.foldl (deletionStep pid ids) st).lastKnownStates tid = none ∧
      mGet (l.foldl (deletionStep pid ids) st).taskProjectMap tid = none ∧
      syntheticDeletion tid pid ∈ (l.foldl (deletionStep pid ids) st).notifications := by
  induction l with
  | nil => intro st hf _; simp at hf
  | cons e rest ih =>
    intro st hfind hget
    by_cases he : e.1 = tid
    · have hfe : (e :: rest).find? (fun e => decide (e.1 = tid)) = some e :=
        List.find?_cons_of_pos _ (by simpa using he)
      have heq : e = (tid, pid) := by
        rw [hfe] at hfind
        exact Option.some.inj hfind
      subst heq
      have hstep : deletionStep pid ids st (tid, pid) =
          { st with
            notifications := st.notifications ++ [syntheticDeletion tid pid]
            lastKnownStates := mDel st.lastKnownStates tid
            taskProjectMap := mDel st.taskProjectMap tid } := by
        simp [deletionStep, habs, hget, hcs1, hcs2]
      rw [List.foldl_cons, hstep]
      apply deletionPass_stable
      · exact mGet_mDel_self _ _
      · exact mGet_mDel_self _ _
      · exact List.mem_append_right _ (List.mem_cons_self _ _)
    · have hfind' : rest.find? (fun e => decide (e.1 = tid)) = some (tid, pid) := by
        rw [List.find?_cons_of_neg _ (by simpa using he)] at hfind
        exact hfind
      have hother := deletionStep_other pid ids tid st e he
      rw [List.foldl_cons]
      apply ih (deletionStep pid ids st e) hfind'
      rw [hother.1]
      exact hget

theorem changeStep_stable (pid tid : String) (x : VKTask) (st : PollerState)
    (t : VKTask) (hne : ¬ t.id = tid)
    (h1 : mGet st.lastKnownStates tid = none)
    (h2 : mGet st.taskProjectMap tid = none)
    (h3 : x ∈ st.notifications) :
    mGet (changeStep pid st t).lastKnownStates tid = none ∧
    mGet (changeStep pid st t).taskProjectMap tid = none ∧
    x ∈ (changeStep pid st t).notifications := by
  have hne' : ¬ tid = t.id := fun hh => hne hh.symm
  have e1 : (changeStep pid st t).lastKnownStates =
      mSet st.lastKnownStates t.id
        (combined t.status t.has_in_progress_attempt) := rfl
  have e2 : (changeStep pid st t).taskProjectMap =
      mSet st.taskProjectMap t.id pid := rfl
  have e3 : (changeStep pid st t).notifications =
      if mGet st.lastKnownStates t.id ≠ none ∧
          mGet st.lastKnownStates t.id ≠
            some (combined t.status t.has_in_progress_attempt) then
        st.notifications ++ [t]
      else st.notifications := rfl
  refine ⟨?_, ?_, ?_⟩
  · rw [e1, mGet_mSet_ne _ _ _ _ hne']
    exact h1
  · rw [e2, mGet_mSet_ne _ _ _ _ hne']
    exact h2
  · rw [e3]
    split
    · exact List.mem_append_left _ h3
    · exact h3

theorem changePass_stable (pid tid : String) (x : VKTask) (tasks : List VKTask) :
    ∀ st : PollerState, (¬ tid ∈ tasks.map VKTask.id) →
      mGet st.lastKnownStates tid = none →
      mGet st.taskProjectMap tid = none →
      x ∈ st.notifications →
      mGet (changePass st pid tasks).lastKnownStates tid = none ∧
      mGet (changePass st pid tasks).taskProjectMap tid = none ∧
      x ∈ (changePass st pid tasks).notifications := by
  induction tasks with
  | nil => exact fun st _ a b c => ⟨a, b, c⟩
  | cons t rest ih =>
    intro st hids a b c
    rw [List.map_cons, List.mem_cons] at hids
    push_neg at hids
    have hstep := changeStep_stable pid tid x st t
      (fun hh => hids.1 hh.symm) a b c
    exact ih (changeStep pid st t) hids.2 hstep.1 hstep.2.1 hstep.2.2

theorem cleanup_stable_none (tid : String) (s : PollerState)
    (h1 : mGet s.lastKnownStates tid = none)
    (h2 : mGet s.taskProjectMap tid = none) :
    mGet (cleanupTerminalTasks s).lastKnownStates tid = none ∧
    mGet (cleanupTerminalTasks s).taskProjectMap tid = none :=
  foldl_inv (fun st => mGet st.lastKnownStates tid = none ∧
      mGet st.taskProjectMap tid = none)
    cleanupStep s.lastKnownStates
    (fun st b _ hP => by
      unfold cleanupStep
      split
      · exact ⟨mGet_mDel_none _ _ _ hP.1, mGet_mDel_none _ _ _ hP.2⟩
      · exact hP)
    s ⟨h1, h2⟩

theorem evict_stable_none (tid : String) (keys : List String) :
    ∀ (need : Nat) (s : PollerState),
      mGet s.lastKnownStates tid = none →
      mGet s.taskProjectMap tid = none →
      mGet (evictLoop s need keys).lastKnownStates tid = none ∧
      mGet (evictLoop s need keys).taskProjectMap tid = none := by
  induction keys with
  | nil => exact fun need s a b => ⟨a, b⟩
  | cons key rest ih =>
    intro need s a b
    unfold evictLoop
    split
    · exact ⟨a, b⟩
    · split
      · exact ih need s a b
      · exact ih (need - 1) _ (mGet_mDel_none _ _ _ a) (mGet_mDel_none _ _ _ b)

theorem capacityEvict_stable_none (tid : String) (s : PollerState)
    (h1 : mGet s.lastKnownStates tid = none)
    (h2 : mGet s.taskProjectMap tid = none) :
    mGet (capacityEvict s).lastKnownStates tid = none ∧
    mGet (capacityEvict s).taskProjectMap tid = none := by
  unfold capacityEvict
  split
  · exact evict_stable_none tid _ _ s h1 h2
  · exact ⟨h1, h2⟩

/-- C10: the active-set exemption does not extend to deletion detection.
A task identifier in the active set with a recorded combined state whose
project's successful fetch omits it is handled exactly as an inactive task
would be: the deleted-task scan (which never consults activeTaskIds)
removes its combined state and project mapping and emits a synthetic
deletion notification, and neither the change loop nor the cleanup or
eviction passes resurrect it within the same response processing. -/
theorem poller_deletion_ignores_active_set (s : PollerState)
    (pid tid cs : String) (tasks : List VKTask)
    (hactive : tid ∈ s.activeTaskIds)
    (hmap : mGet s.taskProjectMap tid = some pid)
    (hstate : mGet s.lastKnownStates tid = some cs)
    (hcs1 : ¬ cs = "") (hcs2 : ¬ cs = "deleted")
    (habsent : ¬ tid ∈ tasks.map VKTask.id) :
    mGet (processResponse s pid tasks).lastKnownStates tid = none ∧
    mGet (processResponse s pid tasks).taskProjectMap tid = none ∧
    syntheticDeletion tid pid ∈ (processResponse s pid tasks).notifications := by
  have hfind := mGet_eq_find s.taskProjectMap tid pid hmap
  have hdel := deletionPass_removes pid tid cs (tasks.map VKTask.id)
    hcs1 hcs2 habsent s.taskProjectMap s hfind hstate
  have hch := changePass_stable pid tid (syntheticDeletion tid pid) tasks
    (deletionPass s pid (tasks.map VKTask.id)) habsent hdel.1 hdel.2.1 hdel.2.2
  have hcl := cleanup_stable_none tid
    (changePass (deletionPass s pid (tasks.map VKTask.id)) pid tasks)
    hch.1 hch.2.1
  have hev := capacityEvict_stable_none tid
    (cleanupTerminalTasks
      (changePass (deletionPass s pid (tasks.map VKTask.id)) pid tasks))
    hcl.1 hcl.2
  refine ⟨hev.1, hev.2, ?_⟩
  show syntheticDeletion tid pid ∈
    (capacityEvict (cleanupTerminalTasks
      (changePass (deletionPass s pid (tasks.map VKTask.id)) pid tasks))).notifications
  rw [capacityEvict_notifications, cleanupTerminalTasks_notifications]
  exact hch.2.2

/-- Witness for C10 at a concrete input: the active task X, tracked for
project P with combined state "deleted:false", absent from P's successful
empty response, is purged from both maps and a synthetic deletion
notification is emitted. -/
theorem poller_deletion_ignores_active_set_witness :
    "X" ∈ deletedPhaseState.activeTaskIds ∧
    mGet deletedPhaseState.taskProjectMap "X" = some "P" ∧
    mGet deletedPhaseState.lastKnownStates "X" = some "deleted:false" ∧
    ¬ "deleted:false" = "" ∧
    ¬ "deleted:false" = "deleted" ∧
    ¬ "X" ∈ ([] : List VKTask).map VKTask.id ∧
    (mGet (processResponse deletedPhaseState "P" []).lastKnownStates "X" = none ∧
      mGet (processResponse deletedPhaseState "P" []).taskProjectMap "X" = none ∧
      syntheticDeletion "X" "P" ∈
        (processResponse deletedPhaseState "P" []).notifications) :=
  ⟨List.mem_cons_self _ _, rfl, rfl, by decide, by decide,
    List.not_mem_nil _,
    poller_deletion_ignores_active_set deletedPhaseState "P" "X" "deleted:false"
      [] (List.mem_cons_self _ _) rfl rfl (by decide) (by decide)
      (List.not_mem_nil _)⟩

theorem changePass_no_notify (pid : String) (tasks : List VKTask) :
    ∀ st : PollerState, (tasks.map VKTask.id).Nodup →
      (∀ t ∈ tasks, mGet st.lastKnownStates t.id = none) →
      (changePass st pid tasks).notifications = st.notifications := by
  induction tasks with
  | nil => exact fun st _ _ => rfl
  | cons t rest ih =>
    intro st hnd hnone
    rw [List.map_cons, List.nodup_cons] at hnd
    have ht : mGet st.lastKnownStates t.id = none :=
      hnone t (List.mem_cons_self _ _)
    have e3 : (changeStep pid st t).notifications = st.notifications := by
      have e3' : (changeStep pid st t).notifications =
          if mGet st.lastKnownStates t.id ≠ none ∧
              mGet st.lastKnownStates t.id ≠
                some (combined t.status t.has_in_progress_attempt) then
            st.notifications ++ [t]
          else st.notifications := rfl
      rw [e3', if_neg]
      intro hc
      exact hc.1 ht
    have hnone' : ∀ t' ∈ rest,
        mGet (changeStep pid st t).lastKnownStates t'.id = none := by
      intro t' ht'
      have hne : ¬ t'.id = t.id := by
        intro he
        apply hnd.1
        rw [← he]
        exact List.mem_map.mpr ⟨t', ht', rfl⟩
      have e1 : (changeStep pid st t).lastKnownStates =
          mSet st.lastKnownStates t.id
            (combined t.status t.has_in_progress_attempt) := rfl
      rw [e1, mGet_mSet_ne _ _ _ _ hne]
      exact hnone t' (List.mem_cons_of_mem _ ht')
    calc (changePass st pid (t :: rest)).notifications
        = (changePass (changeStep pid st t) pid rest).notifications := rfl
      _ = (changeStep pid st t).notifications := ih (changeStep pid st t) hnd.2 hnone'
      _ = st.notifications := e3

/-- C4 counterexample: the poller is running for project P with empty
tracked maps; stop() is called while P's fetch is in flight; the fetch then
resolves with a 200 response containing task X.  The claim says processing
of that result never writes to lastKnownStates (which stop() cleared), but
the code re-checks isPolling only before the await, not after, so the
resolved result is processed and repopulates the map. -/
theorem poller_stop_leaks_map_writes :
    (poll preStopState stopScenarioOracle (fun _ => true)).lastKnownStates
      = [("X", "todo:false")] ∧
    [("X", "todo:false")] ≠ ([] : List (String × String)) :=
  ⟨rfl, by decide⟩

/-- C4 amended: once stop() has returned, a fetch that was in flight at
that moment is still processed when it resolves — its tasks may be written
into lastKnownStates and taskProjectMap, repopulating the cleared maps —
but the processing never invokes the onUpdate callback (the cleared
tracked state yields no prior-state comparison and no deletion candidates,
provided the response carries no duplicate task identifiers), never
schedules a further poll timer, and leaves the engine stopped. -/
theorem poller_stop_discards_notifications (s : PollerState) (p0 : String)
    (fetch : String → FetchResult) (tasks : List VKTask)
    (hpoll : s.isPolling = true) (hproj : s.projectIds = [p0])
    (hfetch : fetch p0 = FetchResult.response 200 tasks)
    (hnodup : (tasks.map VKTask.id).Nodup) :
    (poll s fetch (fun _ => true)).notifications = s.notifications ∧
    (poll s fetch (fun _ => true)).timerScheduled = false ∧
    (poll s fetch (fun _ => true)).isPolling = false := by
  have hpoll_eq : poll s fetch (fun _ => true) =
      pollFinish (pollLoop fetch (fun _ => true) s false s.projectIds) := by
    unfold poll
    rw [if_neg (by simp [hpoll])]
  have hloop : pollLoop fetch (fun _ => true) s false s.projectIds =
      (processResponse (stop s) p0 tasks, false, true) := by
    rw [hproj]
    conv_lhs => unfold pollLoop
    rw [if_pos (show p0 ∈ s.projectIds by
        rw [hproj]; exact List.mem_cons_self _ _),
      if_neg (by simp [hpoll])]
    rw [hfetch]
    rfl
  have hdp : deletionPass (stop s) p0 (tasks.map VKTask.id) = stop s := rfl
  have hnone : ∀ t ∈ tasks, mGet (stop s).lastKnownStates t.id = none :=
    fun t _ => rfl
  have hch := changePass_no_notify p0 tasks (stop s) hnodup hnone
  have hnotif : (processResponse (stop s) p0 tasks).notifications =
      s.notifications := by
    show (capacityEvict (cleanupTerminalTasks (changePass
        (deletionPass (stop s) p0 (tasks.map VKTask.id)) p0 tasks))).notifications =
      s.notifications
    rw [hdp, capacityEvict_notifications, cleanupTerminalTasks_notifications, hch]
    rfl
  have hctl := processResponse_controls (stop s) p0 tasks
  have hXpoll : (processResponse (stop s) p0 tasks).isPolling = false := by
    rw [hctl.1]
    rfl
  have hXtimer : (processResponse (stop s) p0 tasks).timerScheduled = false := by
    rw [hctl.2.2.2.2.2]
    rfl
  have hub := updateBackoff_fields (processResponse (stop s) p0 tasks) false
  have hfin : pollFinish (processResponse (stop s) p0 tasks, false, true) =
      updateBackoff (processResponse (stop s) p0 tasks) false := by
    unfold pollFinish
    rw [if_pos rfl, if_neg]
    simp [hub.1, hXpoll]
  rw [hpoll_eq, hloop, hfin]
  refine ⟨?_, ?_, ?_⟩
  · rw [hub.2.2.1, hnotif]
  · rw [hub.2.2.2.1, hXtimer]
  · rw [hub.1, hXpoll]

/-- Witness for C4's amended theorem at the stop-race scenario input. -/
theorem poller_stop_discards_notifications_witness :
    preStopState.isPolling = true ∧
    preStopState.projectIds = ["P"] ∧
    stopScenarioOracle "P" = FetchResult.response 200 [inflightTask] ∧
    ([inflightTask].map VKTask.id).Nodup ∧
    ((poll preStopState stopScenarioOracle (fun _ => true)).notifications =
        preStopState.notifications ∧
      (poll preStopState stopScenarioOracle (fun _ => true)).timerScheduled = false ∧
      (poll preStopState stopScenarioOracle (fun _ => true)).isPolling = false) :=
  ⟨rfl, rfl, rfl, by decide,
    poller_stop_discards_notifications preStopState "P" stopScenarioOracle
      [inflightTask] rfl rfl rfl (by decide)⟩
